import Mathlib

/-!
Shallow embedding of the grocery-list service in `src/server.js` (the active,
multi-list revision of the file).  JavaScript numbers that hold ids and
positions are modelled as `Int`; strings as `String`; the JSON document on
disk as an `Option Document` (`none` = file absent; JSON serialisation and
parsing are modelled as the identity round trip, which is exact for this data
model).  A request-body field that may be absent or not a string is modelled
as `Option String` / `Option (List Int)` (`none` = missing or wrong type).
Handler outcomes are `Except ApiError`, with the error kind matching the HTTP
status the handler sends (400 = invalidArgument, 404 = notFound,
500 = storeFailure).
-/

namespace Grocery

/-- An item of a grocery list: `{ id, name, checked, position }`. -/
structure Item where
  id : Int
  name : String
  checked : Bool
  position : Int
deriving Repr, DecidableEq, Inhabited

/-- A named list: `{ id, name, items }`. -/
structure GroceryList where
  id : Int
  name : String
  items : List Item
deriving Repr, DecidableEq, Inhabited

/-- The whole persisted document: `{ lists }`. -/
structure Document where
  lists : List GroceryList
deriving Repr, DecidableEq, Inhabited

/-- Error kinds, by the HTTP status the handlers send:
400 → `invalidArgument`, 404 → `notFound`, 500 → `storeFailure`. -/
inductive ApiError where
  | invalidArgument
  | notFound
  | storeFailure
deriving Repr, DecidableEq

/-- The document synthesised by `readDatabase` when the backing file is
absent: `{ lists: [{ id: 1, name: "Småhandling", items: [] }] }`. -/
def defaultDocument : Document :=
  { lists := [{ id := 1, name := "Småhandling", items := [] }] }

/-- `readDatabase` over an explicit store state (`none` = file absent).
On ENOENT it writes the default document and returns it; otherwise it
returns the parsed contents and leaves the store unchanged.  The returned
pair is (document handed to the caller, store state after the call). -/
def readDatabase : Option Document → Document × Option Document
  | none => (defaultDocument, some defaultDocument)
  | some d => (d, some d)

/-- JavaScript `String.prototype.trim`: the string with leading and
trailing whitespace removed, translated directly on the character list. -/
def jsTrim (s : String) : String :=
  String.mk (((s.data.dropWhile Char.isWhitespace).reverse.dropWhile
    Char.isWhitespace).reverse)

/-- `Math.max(...xs)` for a list known to be non-empty (the `[]` case is
never reached behind the `length > 0` guards in the source). -/
def listMax : List Int → Int
  | [] => 0
  | x :: xs => xs.foldl max x

/-- `POST /lists` body: validates the name (`!name`, non-string, or blank
after trim → 400), allocates `max(ids)+1` (or 1), appends the new list. -/
def createList (doc : Document) (name : Option String) :
    Except ApiError (Document × GroceryList) :=
  match name with
  | none => .error .invalidArgument
  | some s =>
    if s = "" ∨ jsTrim s = "" then .error .invalidArgument
    else
      let newId : Int :=
        if doc.lists.length > 0 then listMax (doc.lists.map GroceryList.id) + 1 else 1
      let newList : GroceryList := { id := newId, name := jsTrim s, items := [] }
      .ok ({ lists := doc.lists ++ [newList] }, newList)

/-- `POST /lists/:listId/groceries` body, after the list lookup.  Note the
source performs no validation of `name` here: a missing or non-string
`name` makes `name.trim()` throw a TypeError, which the handler's catch
turns into a 500 (`storeFailure` kind); any string, including blank ones,
is accepted and stored trimmed. -/
def addItem (list : GroceryList) (name : Option String) :
    Except ApiError (GroceryList × Item) :=
  match name with
  | none => .error .storeFailure
  | some s =>
    let newItemId : Int :=
      if list.items.length > 0 then listMax (list.items.map Item.id) + 1 else 1
    let newPosition : Int :=
      if list.items.length > 0 then listMax (list.items.map Item.position) + 1 else 0
    let newItem : Item :=
      { id := newItemId, name := jsTrim s, checked := false, position := newPosition }
    .ok ({ list with items := list.items ++ [newItem] }, newItem)

/-- `GET /lists/:listId/groceries` body: `items.sort((a, b) => a.position - b.position)`.
JavaScript `Array.prototype.sort` is a stable sort and this comparator orders
ascending by `position`, so it is embedded as a stable merge sort by `position`. -/
def listItems (list : GroceryList) : List Item :=
  list.items.mergeSort (fun a b => a.position ≤ b.position)

/-- One step of the reorder loop: `itemMap.get(id)` resolves to the LAST
item of the array with that id (later `Map` entries overwrite earlier
ones), and if it exists its `position` is set to the running index.
Since the loop never changes any `id`, recomputing the last match at each
step is equivalent to the single up-front map build in the source. -/
def updateLastPos : List Item → Int → Int → List Item
  | [], _, _ => []
  | it :: rest, tid, p =>
    if rest.any (fun x => x.id == tid) then it :: updateLastPos rest tid p
    else if it.id == tid then { it with position := p } :: rest
    else it :: updateLastPos rest tid p

/-- `orderedIds.forEach((id, index) => ...)` with the running index made
explicit: process each id in order, assigning the index to the matched
item and incrementing the index regardless of a match. -/
def applyOrder : List Item → List Int → Int → List Item
  | items, [], _ => items
  | items, tid :: rest, i => applyOrder (updateLastPos items tid i) rest (i + 1)

/-- The reorder algorithm of `POST /lists/:listId/groceries/reorder`,
starting the index at 0. -/
def reorderItems (items : List Item) (orderedIds : List Int) : List Item :=
  applyOrder items orderedIds 0

/-- Reorder applied to a list (the handler mutates `list.items` in place
through the map and saves the document). -/
def reorder (list : GroceryList) (orderedIds : List Int) : GroceryList :=
  { list with items := reorderItems list.items orderedIds }

/-- `DELETE /lists/:listId/groceries/:itemId` body, after the list lookup:
filter out the id, compare lengths, 404 when nothing was removed (no write
happens in that case), otherwise keep the filtered items. -/
def deleteItem (list : GroceryList) (itemId : Int) :
    Except ApiError GroceryList :=
  let newItems := list.items.filter (fun i => i.id != itemId)
  if newItems.length = list.items.length then .error .notFound
  else .ok { list with items := newItems }

/-! ### Helper lemmas about the reorder loop -/

theorem map_id_updateLastPos (items : List Item) (tid p : Int) :
    (updateLastPos items tid p).map Item.id = items.map Item.id := by
  induction items with
  | nil => rfl
  | cons it rest ih =>
    by_cases h1 : rest.any (fun x => x.id == tid) = true
    · simp [updateLastPos, h1, ih]
    · by_cases h2 : it.id == tid
      · simp [updateLastPos, h1, h2]
      · simp [updateLastPos, h1, h2, ih]

theorem any_updateLastPos (items : List Item) (tid tid' p : Int) :
    (updateLastPos items tid' p).any (fun x => x.id == tid)
      = items.any (fun x => x.id == tid) := by
  have h := map_id_updateLastPos items tid' p
  have e : ∀ l : List Item,
      l.any (fun x => x.id == tid) = (l.map Item.id).any (fun i => i == tid) := by
    intro l; induction l with
    | nil => rfl
    | cons a l ih => simp [List.any_cons, ih]
  rw [e, e, h]

theorem updateLastPos_cons_skip {rest : List Item} {tid : Int}
    (h : rest.any (fun x => x.id == tid) = true) (it : Item) (p : Int) :
    updateLastPos (it :: rest) tid p = it :: updateLastPos rest tid p := by
  simp [updateLastPos, h]

theorem updateLastPos_cons_hit {rest : List Item} {tid : Int} {it : Item}
    (h : rest.any (fun x => x.id == tid) = false) (h2 : it.id = tid) (p : Int) :
    updateLastPos (it :: rest) tid p = { it with position := p } :: rest := by
  simp [updateLastPos, h, h2]

theorem updateLastPos_cons_miss {rest : List Item} {tid : Int} {it : Item}
    (h : rest.any (fun x => x.id == tid) = false) (h2 : it.id ≠ tid) (p : Int) :
    updateLastPos (it :: rest) tid p = it :: updateLastPos rest tid p := by
  simp [updateLastPos, h, h2]

theorem updateLastPos_overwrite (items : List Item) (t p q : Int) :
    updateLastPos (updateLastPos items t p) t q = updateLastPos items t q := by
  induction items with
  | nil => rfl
  | cons it rest ih =>
    by_cases h1 : rest.any (fun x => x.id == t) = true
    · simp [updateLastPos, h1, any_updateLastPos, ih]
    · by_cases h2 : it.id == t
      · simp [updateLastPos, h1, h2, any_updateLastPos]
      · simp [updateLastPos, h1, h2, any_updateLastPos, ih]

theorem updateLastPos_comm (items : List Item) {t r : Int} (htr : t ≠ r) (p q : Int) :
    updateLastPos (updateLastPos items t p) r q
      = updateLastPos (updateLastPos items r q) t p := by
  induction items with
  | nil => rfl
  | cons it rest ih =>
    cases h1 : rest.any (fun x => x.id == t) with
    | true =>
      cases h2 : rest.any (fun x => x.id == r) with
      | true =>
        rw [updateLastPos_cons_skip h1, updateLastPos_cons_skip h2,
            updateLastPos_cons_skip (by rw [any_updateLastPos]; exact h2),
            updateLastPos_cons_skip (by rw [any_updateLastPos]; exact h1), ih]
      | false =>
        by_cases h4 : it.id = r
        · rw [updateLastPos_cons_skip h1,
              updateLastPos_cons_hit (by rw [any_updateLastPos]; exact h2) h4,
              updateLastPos_cons_hit h2 h4,
              updateLastPos_cons_skip h1]
        · rw [updateLastPos_cons_skip h1,
              updateLastPos_cons_miss (by rw [any_updateLastPos]; exact h2) h4,
              updateLastPos_cons_miss h2 h4,
              updateLastPos_cons_skip (by rw [any_updateLastPos]; exact h1), ih]
    | false =>
      cases h2 : rest.any (fun x => x.id == r) with
      | true =>
        by_cases h3 : it.id = t
        · rw [updateLastPos_cons_hit h1 h3, updateLastPos_cons_skip h2,
              updateLastPos_cons_skip h2,
              updateLastPos_cons_hit (by rw [any_updateLastPos]; exact h1) h3]
        · rw [updateLastPos_cons_miss h1 h3,
              updateLastPos_cons_skip (by rw [any_updateLastPos]; exact h2),
              updateLastPos_cons_skip h2,
              updateLastPos_cons_miss (by rw [any_updateLastPos]; exact h1) h3, ih]
      | false =>
        by_cases h3 : it.id = t
        · have h4 : it.id ≠ r := by rw [h3]; exact htr
          rw [updateLastPos_cons_hit h1 h3,
              updateLastPos_cons_miss h2 (show Item.id { it with position := p } ≠ r from h4),
              updateLastPos_cons_miss h2 h4,
              updateLastPos_cons_hit (by rw [any_updateLastPos]; exact h1) h3]
        · by_cases h4 : it.id = r
          · rw [updateLastPos_cons_miss h1 h3,
                updateLastPos_cons_hit (by rw [any_updateLastPos]; exact h2) h4,
                updateLastPos_cons_hit h2 h4,
                updateLastPos_cons_miss h1 (show Item.id { it with position := q } ≠ t from h3)]
          · rw [updateLastPos_cons_miss h1 h3,
                updateLastPos_cons_miss (by rw [any_updateLastPos]; exact h2) h4,
                updateLastPos_cons_miss h2 h4,
                updateLastPos_cons_miss (by rw [any_updateLastPos]; exact h1) h3, ih]

theorem applyOrder_absorb {t : Int} : ∀ {rest : List Int}, t ∈ rest →
    ∀ (S : List Item) (p m : Int),
    applyOrder (updateLastPos S t p) rest m = applyOrder S rest m := by
  intro rest
  induction rest with
  | nil => intro h; cases h
  | cons r rs ih =>
    intro h S p m
    by_cases hrt : r = t
    · subst hrt
      show applyOrder (updateLastPos (updateLastPos S r p) r m) rs (m + 1)
          = applyOrder (updateLastPos S r m) rs (m + 1)
      rw [updateLastPos_overwrite]
    · have ht : t ∈ rs := by
        rcases List.mem_cons.mp h with h' | h'
        · exact absurd h'.symm hrt
        · exact h'
      show applyOrder (updateLastPos (updateLastPos S t p) r m) rs (m + 1)
          = applyOrder (updateLastPos S r m) rs (m + 1)
      rw [updateLastPos_comm S (fun he => hrt he.symm), ih ht]

theorem applyOrder_updateLastPos_comm {t : Int} : ∀ {rest : List Int}, t ∉ rest →
    ∀ (S : List Item) (p m : Int),
    applyOrder (updateLastPos S t p) rest m
      = updateLastPos (applyOrder S rest m) t p := by
  intro rest
  induction rest with
  | nil => intro _ S p m; rfl
  | cons r rs ih =>
    intro h S p m
    have hrt : t ≠ r := fun he => h (he ▸ List.mem_cons_self r rs)
    have hrs : t ∉ rs := fun he => h (List.mem_cons_of_mem r he)
    show applyOrder (updateLastPos (updateLastPos S t p) r m) rs (m + 1)
        = updateLastPos (applyOrder (updateLastPos S r m) rs (m + 1)) t p
    rw [updateLastPos_comm S hrt, ih hrs]

theorem applyOrder_idem : ∀ (ids : List Int) (items : List Item) (n : Int),
    applyOrder (applyOrder items ids n) ids n = applyOrder items ids n := by
  intro ids
  induction ids with
  | nil => intro items n; rfl
  | cons t rest ih =>
    intro items n
    show applyOrder
        (updateLastPos (applyOrder (updateLastPos items t n) rest (n + 1)) t n)
        rest (n + 1)
      = applyOrder (updateLastPos items t n) rest (n + 1)
    by_cases ht : t ∈ rest
    · rw [applyOrder_absorb ht, ih]
    · rw [applyOrder_updateLastPos_comm ht
          (applyOrder (updateLastPos items t n) rest (n + 1)) n (n + 1), ih,
        applyOrder_updateLastPos_comm ht items n (n + 1), updateLastPos_overwrite]

theorem forall₂_comp {α β γ : Type _} {P : α → β → Prop} {Q : β → γ → Prop}
    {R : α → γ → Prop} (hpq : ∀ a b c, P a b → Q b c → R a c) :
    ∀ {l₁ : List α} {l₂ : List β} {l₃ : List γ},
    List.Forall₂ P l₁ l₂ → List.Forall₂ Q l₂ l₃ → List.Forall₂ R l₁ l₃ := by
  intro l₁ l₂ l₃ h₁ h₂
  induction h₁ generalizing l₃ with
  | nil => cases h₂; exact .nil
  | cons hab h ih =>
    cases h₂ with
    | cons hbc h' => exact .cons (hpq _ _ _ hab hbc) (ih h')

theorem forall₂_updateLastPos (items : List Item) (tid p : Int) :
    List.Forall₂ (fun a b => b.id = a.id ∧ b.name = a.name ∧ b.checked = a.checked ∧
      (a.id ≠ tid → b = a)) items (updateLastPos items tid p) := by
  induction items with
  | nil => exact .nil
  | cons it rest ih =>
    cases h1 : rest.any (fun x => x.id == tid) with
    | true =>
      rw [updateLastPos_cons_skip h1]
      exact .cons ⟨rfl, rfl, rfl, fun _ => rfl⟩ ih
    | false =>
      by_cases h2 : it.id = tid
      · rw [updateLastPos_cons_hit h1 h2]
        refine .cons ⟨rfl, rfl, rfl, fun hne => absurd h2 hne⟩ ?_
        exact List.forall₂_same.mpr (fun a _ => ⟨rfl, rfl, rfl, fun _ => rfl⟩)
      · rw [updateLastPos_cons_miss h1 h2]
        exact .cons ⟨rfl, rfl, rfl, fun _ => rfl⟩ ih

theorem forall₂_applyOrder_frame : ∀ (ids : List Int) (items : List Item) (n : Int),
    List.Forall₂ (fun a b => b.id = a.id ∧ b.name = a.name ∧ b.checked = a.checked ∧
      (a.id ∉ ids → b = a)) items (applyOrder items ids n) := by
  intro ids
  induction ids with
  | nil =>
    intro items n
    exact List.forall₂_same.mpr (fun a _ => ⟨rfl, rfl, rfl, fun _ => rfl⟩)
  | cons t rest ih =>
    intro items n
    show List.Forall₂ _ items (applyOrder (updateLastPos items t n) rest (n + 1))
    refine forall₂_comp ?_ (forall₂_updateLastPos items t n)
      (ih (updateLastPos items t n) (n + 1))
    rintro a b c ⟨hid, hname, hchk, hfr⟩ ⟨hid', hname', hchk', hfr'⟩
    refine ⟨hid'.trans hid, hname'.trans hname, hchk'.trans hchk, ?_⟩
    intro hnotin
    have hat : a.id ≠ t := fun he => hnotin (he ▸ List.mem_cons_self t rest)
    have hba : b = a := hfr hat
    subst hba
    exact hfr' (fun he => hnotin (List.mem_cons_of_mem t he))

theorem forall₂_updateLastPos_hit (tid p : Int) : ∀ (items : List Item),
    (items.map Item.id).Nodup →
    List.Forall₂ (fun a b => (a.id = tid → b = { a with position := p }) ∧
      (a.id ≠ tid → b = a)) items (updateLastPos items tid p) := by
  intro items
  induction items with
  | nil => intro _; exact .nil
  | cons it rest ih =>
    intro hnd
    rw [List.map_cons, List.nodup_cons] at hnd
    obtain ⟨hnotin, hnd'⟩ := hnd
    by_cases h2 : it.id = tid
    · have h1 : rest.any (fun x => x.id == tid) = false := by
        rw [List.any_eq_false]
        intro x hx
        simp only [beq_iff_eq]
        intro he
        exact hnotin (List.mem_map.mpr ⟨x, hx, by rw [he, h2]⟩)
      rw [updateLastPos_cons_hit h1 h2]
      refine .cons ⟨fun _ => rfl, fun hne => absurd h2 hne⟩ ?_
      refine List.forall₂_same.mpr (fun a ha => ⟨fun he => ?_, fun _ => rfl⟩)
      exact absurd (List.mem_map.mpr ⟨a, ha, by rw [he, h2]⟩) hnotin
    · cases h1 : rest.any (fun x => x.id == tid) with
      | true =>
        rw [updateLastPos_cons_skip h1]
        exact .cons ⟨fun he => absurd he h2, fun _ => rfl⟩ (ih hnd')
      | false =>
        rw [updateLastPos_cons_miss h1 h2]
        exact .cons ⟨fun he => absurd he h2, fun _ => rfl⟩ (ih hnd')

theorem forall₂_applyOrder_pos : ∀ (ids : List Int), ids.Nodup →
    ∀ (items : List Item), (items.map Item.id).Nodup → ∀ (n : Int),
    List.Forall₂ (fun a b => b.id = a.id ∧
      (a.id ∈ ids → b.position = n + (ids.indexOf a.id : Int)) ∧
      (a.id ∉ ids → b = a)) items (applyOrder items ids n) := by
  intro ids
  induction ids with
  | nil =>
    intro _ items _ n
    refine List.forall₂_same.mpr (fun a _ => ⟨rfl, fun h => ?_, fun _ => rfl⟩)
    exact absurd h (List.not_mem_nil _)
  | cons t rest ih =>
    intro hndids items hnd n
    rw [List.nodup_cons] at hndids
    obtain ⟨htrest, hndrest⟩ := hndids
    show List.Forall₂ _ items (applyOrder (updateLastPos items t n) rest (n + 1))
    have hP := forall₂_updateLastPos_hit t n items hnd
    have hnd' : ((updateLastPos items t n).map Item.id).Nodup := by
      rw [map_id_updateLastPos]; exact hnd
    have hQ := ih hndrest (updateLastPos items t n) hnd' (n + 1)
    refine forall₂_comp ?_ hP hQ
    rintro a b c ⟨hhit, hmiss⟩ ⟨hidQ, hposQ, hframeQ⟩
    by_cases hat : a.id = t
    · have hb : b = { a with position := n } := hhit hat
      have hbid : b.id = a.id := by rw [hb]
      have hbrest : b.id ∉ rest := by rw [hbid, hat]; exact htrest
      have hc : c = b := hframeQ hbrest
      refine ⟨by rw [hc, hbid], ?_, ?_⟩
      · intro _
        rw [hc, hb]
        show n = n + (((t :: rest).indexOf a.id : Nat) : Int)
        rw [hat, List.indexOf_cons_self]
        simp
      · intro hnotin
        exact absurd (hat ▸ List.mem_cons_self t rest) hnotin
    · have hb : b = a := hmiss hat
      rw [hb] at hidQ hposQ hframeQ
      refine ⟨hidQ, ?_, ?_⟩
      · intro hmem
        have hmem' : a.id ∈ rest := by
          rcases List.mem_cons.mp hmem with h | h
          · exact absurd h hat
          · exact h
        rw [hposQ hmem', List.indexOf_cons_ne _ (fun he => hat he.symm)]
        push_cast
        ring
      · intro hnotin
        exact hframeQ (fun he => hnotin (List.mem_cons_of_mem t he))

/-! ### Helper lemmas about `listMax` -/

theorem foldl_max_le_self : ∀ (xs : List Int) (a : Int), a ≤ xs.foldl max a := by
  intro xs
  induction xs with
  | nil => intro a; exact le_refl a
  | cons y ys ih =>
    intro a
    exact le_trans (le_max_left a y) (ih (max a y))

theorem le_foldl_max_of_mem : ∀ (xs : List Int) (a x : Int), x ∈ xs → x ≤ xs.foldl max a := by
  intro xs
  induction xs with
  | nil => intro a x hx; cases hx
  | cons y ys ih =>
    intro a x hx
    rcases List.mem_cons.mp hx with h | h
    · subst h
      exact le_trans (le_max_right a x) (foldl_max_le_self ys (max a x))
    · exact ih (max a y) x h

theorem foldl_max_mem : ∀ (xs : List Int) (a : Int), xs.foldl max a = a ∨ xs.foldl max a ∈ xs := by
  intro xs
  induction xs with
  | nil => intro a; exact Or.inl rfl
  | cons y ys ih =>
    intro a
    rcases ih (max a y) with h | h
    · rcases max_choice a y with hm | hm
      · exact Or.inl (by rw [List.foldl_cons, h, hm])
      · exact Or.inr (by rw [List.foldl_cons, h, hm]; exact List.mem_cons_self y ys)
    · exact Or.inr (List.mem_cons_of_mem y h)

theorem listMax_spec (xs : List Int) (hne : xs ≠ []) :
    listMax xs ∈ xs ∧ ∀ x ∈ xs, x ≤ listMax xs := by
  cases xs with
  | nil => exact absurd rfl hne
  | cons y ys =>
    constructor
    · show ys.foldl max y ∈ y :: ys
      rcases foldl_max_mem ys y with h | h
      · rw [h]; exact List.mem_cons_self y ys
      · exact List.mem_cons_of_mem y h
    · intro x hx
      rcases List.mem_cons.mp hx with h | h
      · subst h; exact foldl_max_le_self ys x
      · exact le_foldl_max_of_mem ys y x h

/-! ### Claim theorems -/

/-- C1: for a list whose item ids are unique and a duplicate-free
`orderedIds`, reorder assigns to each item whose id occurs in `orderedIds`
the position equal to the zero-based index of that id's occurrence in
`orderedIds`; since the assigned value is the absolute index (ids with no
matching item still consume their slot), a matched id's new position is
its index in `orderedIds`, not a compacted count. -/
theorem reorder_assigns_indices (items : List Item) (ids : List Int)
    (hitems : (items.map Item.id).Nodup) (hids : ids.Nodup) :
    List.Forall₂ (fun a b => b.id = a.id ∧
      (a.id ∈ ids → b.position = (ids.indexOf a.id : Int)))
      items (reorderItems items ids) := by
  have h := forall₂_applyOrder_pos ids hids items hitems 0
  refine List.Forall₂.imp ?_ h
  rintro a b ⟨hid, hpos, _⟩
  refine ⟨hid, fun hm => ?_⟩
  rw [hpos hm]
  exact zero_add _

/-- Witness for `reorder_assigns_indices` at a concrete list and sequence
(id 5 matches nothing and still consumes index 0, so item 2 gets position 1). -/
theorem reorder_assigns_indices_witness :
    ((([⟨1, "milk", false, 0⟩, ⟨2, "bread", false, 1⟩] : List Item).map Item.id).Nodup) ∧
    (([5, 2] : List Int).Nodup) ∧
    List.Forall₂ (fun a b => b.id = a.id ∧
      (a.id ∈ ([5, 2] : List Int) → b.position = ((([5, 2] : List Int).indexOf a.id : Nat) : Int)))
      ([⟨1, "milk", false, 0⟩, ⟨2, "bread", false, 1⟩] : List Item)
      (reorderItems [⟨1, "milk", false, 0⟩, ⟨2, "bread", false, 1⟩] [5, 2]) :=
  ⟨by decide, by decide,
    reorder_assigns_indices [⟨1, "milk", false, 0⟩, ⟨2, "bread", false, 1⟩] [5, 2]
      (by decide) (by decide)⟩

/-- C2: reorder neither adds nor removes items, changes no field other
than `position`, and leaves every item whose id does not appear anywhere
in `orderedIds` entirely unchanged, position included. -/
theorem reorder_frame (items : List Item) (ids : List Int) :
    List.Forall₂ (fun a b => b.id = a.id ∧ b.name = a.name ∧ b.checked = a.checked ∧
      (a.id ∉ ids → b = a)) items (reorderItems items ids) :=
  forall₂_applyOrder_frame ids items 0

/-- C4: when the backing file does not exist, `readDatabase` returns a
document holding exactly one list with the fixed default name and an empty
item collection, the post-call store state holds exactly that document
(persisted before it is returned), and a subsequent load from that store
returns the same document and leaves the store unchanged. -/
theorem readDatabase_fresh :
    readDatabase none = (defaultDocument, some defaultDocument) ∧
    defaultDocument.lists.map GroceryList.name = ["Småhandling"] ∧
    defaultDocument.lists.map GroceryList.items = [[]] ∧
    (readDatabase (readDatabase none).2).1 = (readDatabase none).1 ∧
    (readDatabase (readDatabase none).2).2 = (readDatabase none).2 :=
  ⟨rfl, rfl, rfl, rfl, rfl⟩

/-- C6: reorder is idempotent — applying the same `orderedIds` twice in
succession produces exactly the same list (hence the same position for
every item) as applying it once. -/
theorem reorder_idempotent (list : GroceryList) (ids : List Int) :
    reorder (reorder list ids) ids = reorder list ids := by
  show ({ list with items := applyOrder (applyOrder list.items ids 0) ids 0 } : GroceryList)
      = { list with items := applyOrder list.items ids 0 }
  rw [applyOrder_idem]

/-- C3 (code bug): the multi-list add-item route performs no name
validation.  A whitespace-only name is accepted and an item with empty
name is created (HTTP 201), instead of failing with `InvalidArgument`;
a missing/non-string name fails with the `storeFailure` kind (the caught
TypeError becomes a 500), not `InvalidArgument`.  The sibling `POST /lists`
route does validate, shown by the last conjunct. -/
theorem addItem_skips_validation :
    addItem { id := 1, name := "Groceries", items := [] } (some "   ")
      = .ok ({ id := 1, name := "Groceries",
               items := [{ id := 1, name := "", checked := false, position := 0 }] },
             { id := 1, name := "", checked := false, position := 0 }) ∧
    addItem { id := 1, name := "Groceries", items := [] } none
      = .error .storeFailure ∧
    createList { lists := [] } (some "   ") = .error .invalidArgument :=
  ⟨rfl, rfl, rfl⟩

/-- C5: `listItems` returns the list's items sorted ascending by
`position`, as a permutation of the stored items, and the sort is stable:
for every position value, the items carrying it appear in the output in
exactly their relative storage order (their filtered subsequence is
unchanged). -/
theorem listItems_sorted_stable (list : GroceryList) :
    (listItems list).Pairwise (fun a b => a.position ≤ b.position) ∧
    List.Perm (listItems list) list.items ∧
    ∀ p : Int, (listItems list).filter (fun x => x.position == p)
      = list.items.filter (fun x => x.position == p) := by
  have htrans : ∀ a b c : Item,
      decide (a.position ≤ b.position) = true →
      decide (b.position ≤ c.position) = true →
      decide (a.position ≤ c.position) = true := by
    intro a b c hab hbc
    simp only [decide_eq_true_eq] at hab hbc ⊢
    exact le_trans hab hbc
  have htotal : ∀ a b : Item,
      (decide (a.position ≤ b.position) || decide (b.position ≤ a.position)) = true := by
    intro a b
    simp only [Bool.or_eq_true, decide_eq_true_eq]
    exact le_total _ _
  refine ⟨?_, ?_, ?_⟩
  · have h := List.sorted_mergeSort htrans htotal list.items
    exact h.imp (fun hab => of_decide_eq_true hab)
  · exact List.mergeSort_perm list.items _
  · intro p
    have hc_sub : List.Sublist (list.items.filter (fun x => x.position == p)) list.items :=
      List.filter_sublist _
    have hc_pw : (list.items.filter (fun x => x.position == p)).Pairwise
        (fun a b => decide (a.position ≤ b.position) = true) := by
      refine List.pairwise_of_forall_mem_list ?_
      intro a ha b hb
      have hpa : a.position = p := by
        have := (List.mem_filter.mp ha).2
        simpa using this
      have hpb : b.position = p := by
        have := (List.mem_filter.mp hb).2
        simpa using this
      simp [hpa, hpb]
    have hstable := List.sublist_mergeSort htrans htotal hc_pw hc_sub
    have hfc : (list.items.filter (fun x => x.position == p)).filter
        (fun x => x.position == p) = list.items.filter (fun x => x.position == p) := by
      rw [List.filter_eq_self]
      intro a ha
      exact (List.mem_filter.mp ha).2
    have h1 : List.Sublist (list.items.filter (fun x => x.position == p))
        ((listItems list).filter (fun x => x.position == p)) := by
      have := List.Sublist.filter (fun x => x.position == p) hstable
      rw [hfc] at this
      exact this
    have hperm : List.Perm ((listItems list).filter (fun x => x.position == p))
        (list.items.filter (fun x => x.position == p)) :=
      List.Perm.filter _ (List.mergeSort_perm list.items _)
    exact (h1.eq_of_length hperm.length_eq.symm).symm

/-- C7: both `createList` (over `doc.lists`) and `addItem` (over
`list.items`) assign the new entity the id `max(existing ids) + 1` when
the collection is non-empty, and the id `1` when it is empty (the maximum
is spelled out as an element of the collection that bounds all ids). -/
theorem id_allocation (doc : Document) (list : GroceryList) (s t : String)
    (doc' : Document) (newL : GroceryList) (list' : GroceryList) (newIt : Item)
    (hC : createList doc (some s) = .ok (doc', newL))
    (hA : addItem list (some t) = .ok (list', newIt)) :
    ((doc.lists = [] → newL.id = 1) ∧
     (doc.lists ≠ [] → ∃ m ∈ doc.lists.map GroceryList.id,
        (∀ x ∈ doc.lists.map GroceryList.id, x ≤ m) ∧ newL.id = m + 1)) ∧
    ((list.items = [] → newIt.id = 1) ∧
     (list.items ≠ [] → ∃ m ∈ list.items.map Item.id,
        (∀ x ∈ list.items.map Item.id, x ≤ m) ∧ newIt.id = m + 1)) := by
  constructor
  · simp only [createList] at hC
    split at hC
    · exact Except.noConfusion hC
    · simp only [Except.ok.injEq, Prod.mk.injEq] at hC
      obtain ⟨-, hL⟩ := hC
      constructor
      · intro hnil
        rw [← hL]
        simp [hnil]
      · intro hne
        obtain ⟨hmem, hub⟩ := listMax_spec (doc.lists.map GroceryList.id)
          (by simpa using hne)
        refine ⟨listMax (doc.lists.map GroceryList.id), hmem, hub, ?_⟩
        rw [← hL]
        simp [List.length_pos.mpr hne]
  · simp only [addItem, Except.ok.injEq, Prod.mk.injEq] at hA
    obtain ⟨-, hI⟩ := hA
    constructor
    · intro hnil
      rw [← hI]
      simp [hnil]
    · intro hne
      obtain ⟨hmem, hub⟩ := listMax_spec (list.items.map Item.id)
        (by simpa using hne)
      refine ⟨listMax (list.items.map Item.id), hmem, hub, ?_⟩
      rw [← hI]
      simp [List.length_pos.mpr hne]

/-- Witness for `id_allocation` with a non-empty document (ids max 3, new
id 4) and a non-empty list (item id max 2, new id 3). -/
theorem id_allocation_witness :
    (createList { lists := [{ id := 3, name := "A", items := [] }] } (some "B")
      = .ok ({ lists := [{ id := 3, name := "A", items := [] },
                         { id := 4, name := "B", items := [] }] },
             { id := 4, name := "B", items := [] })) ∧
    (addItem { id := 1, name := "L",
               items := [{ id := 2, name := "a", checked := false, position := 5 }] }
        (some "b")
      = .ok ({ id := 1, name := "L",
               items := [{ id := 2, name := "a", checked := false, position := 5 },
                         { id := 3, name := "b", checked := false, position := 6 }] },
             { id := 3, name := "b", checked := false, position := 6 })) ∧
    ((([{ id := 3, name := "A", items := [] }] : List GroceryList) = [] →
        ({ id := 4, name := "B", items := [] } : GroceryList).id = 1) ∧
     (([{ id := 3, name := "A", items := [] }] : List GroceryList) ≠ [] →
        ∃ m ∈ ([{ id := 3, name := "A", items := [] }] : List GroceryList).map GroceryList.id,
          (∀ x ∈ ([{ id := 3, name := "A", items := [] }] : List GroceryList).map
              GroceryList.id, x ≤ m) ∧
          ({ id := 4, name := "B", items := [] } : GroceryList).id = m + 1)) ∧
    ((([{ id := 2, name := "a", checked := false, position := 5 }] : List Item) = [] →
        ({ id := 3, name := "b", checked := false, position := 6 } : Item).id = 1) ∧
     (([{ id := 2, name := "a", checked := false, position := 5 }] : List Item) ≠ [] →
        ∃ m ∈ ([{ id := 2, name := "a", checked := false, position := 5 }] : List Item).map
            Item.id,
          (∀ x ∈ ([{ id := 2, name := "a", checked := false, position := 5 }] : List Item).map
              Item.id, x ≤ m) ∧
          ({ id := 3, name := "b", checked := false, position := 6 } : Item).id = m + 1)) :=
  ⟨rfl, rfl,
    id_allocation { lists := [{ id := 3, name := "A", items := [] }] }
      { id := 1, name := "L",
        items := [{ id := 2, name := "a", checked := false, position := 5 }] }
      "B" "b"
      { lists := [{ id := 3, name := "A", items := [] },
                  { id := 4, name := "B", items := [] }] }
      { id := 4, name := "B", items := [] }
      { id := 1, name := "L",
        items := [{ id := 2, name := "a", checked := false, position := 5 },
                  { id := 3, name := "b", checked := false, position := 6 }] }
      { id := 3, name := "b", checked := false, position := 6 }
      rfl rfl⟩

/-- C8: the item created by `addItem` has position `max(existing
positions) + 1` when the list already has items, position `0` when the
list is empty, and `checked = false`. -/
theorem position_allocation (list : GroceryList) (s : String)
    (list' : GroceryList) (newIt : Item)
    (hA : addItem list (some s) = .ok (list', newIt)) :
    newIt.checked = false ∧
    (list.items = [] → newIt.position = 0) ∧
    (list.items ≠ [] → ∃ m ∈ list.items.map Item.position,
       (∀ x ∈ list.items.map Item.position, x ≤ m) ∧ newIt.position = m + 1) := by
  simp only [addItem, Except.ok.injEq, Prod.mk.injEq] at hA
  obtain ⟨-, hI⟩ := hA
  refine ⟨by rw [← hI], ?_, ?_⟩
  · intro hnil
    rw [← hI]
    simp [hnil]
  · intro hne
    obtain ⟨hmem, hub⟩ := listMax_spec (list.items.map Item.position)
      (by simpa using hne)
    refine ⟨listMax (list.items.map Item.position), hmem, hub, ?_⟩
    rw [← hI]
    simp [List.length_pos.mpr hne]

/-- Witness for `position_allocation` with a non-empty list whose largest
position is 5; the new item gets position 6 and `checked = false`. -/
theorem position_allocation_witness :
    (addItem { id := 1, name := "L",
               items := [{ id := 2, name := "a", checked := false, position := 5 }] }
        (some "c")
      = .ok ({ id := 1, name := "L",
               items := [{ id := 2, name := "a", checked := false, position := 5 },
                         { id := 3, name := "c", checked := false, position := 6 }] },
             { id := 3, name := "c", checked := false, position := 6 })) ∧
    (({ id := 3, name := "c", checked := false, position := 6 } : Item).checked = false ∧
     (([{ id := 2, name := "a", checked := false, position := 5 }] : List Item) = [] →
        ({ id := 3, name := "c", checked := false, position := 6 } : Item).position = 0) ∧
     (([{ id := 2, name := "a", checked := false, position := 5 }] : List Item) ≠ [] →
        ∃ m ∈ ([{ id := 2, name := "a", checked := false, position := 5 }] : List Item).map
            Item.position,
          (∀ x ∈ ([{ id := 2, name := "a", checked := false, position := 5 }] : List Item).map
              Item.position, x ≤ m) ∧
          ({ id := 3, name := "c", checked := false, position := 6 } : Item).position = m + 1)) :=
  ⟨rfl,
    position_allocation
      { id := 1, name := "L",
        items := [{ id := 2, name := "a", checked := false, position := 5 }] }
      "c"
      { id := 1, name := "L",
        items := [{ id := 2, name := "a", checked := false, position := 5 },
                  { id := 3, name := "c", checked := false, position := 6 }] }
      { id := 3, name := "c", checked := false, position := 6 }
      rfl⟩

/-- C9: on a list with unique item ids, `deleteItem` removes exactly the
one item whose id equals `itemId` when it exists (the items become
`pre ++ post` for the unique split `pre ++ x :: post`), fails with
`NotFound` when no item has that id — leaving the list unchanged, since
the error branch writes nothing — and therefore fails the second time it
is called with the same id. -/
theorem deleteItem_spec (list : GroceryList) (itemId : Int)
    (hnd : (list.items.map Item.id).Nodup) :
    ((∀ x ∈ list.items, x.id ≠ itemId) → deleteItem list itemId = .error .notFound) ∧
    (∀ x ∈ list.items, x.id = itemId →
      ∃ pre post, list.items = pre ++ x :: post ∧
        deleteItem list itemId = .ok { list with items := pre ++ post } ∧
        deleteItem { list with items := pre ++ post } itemId = .error .notFound) := by
  constructor
  · intro hno
    have hf : list.items.filter (fun i => i.id != itemId) = list.items := by
      rw [List.filter_eq_self]
      intro a ha
      simpa [bne_iff_ne] using hno a ha
    simp [deleteItem, hf]
  · intro x hx hxid
    obtain ⟨pre, post, hsplit⟩ := List.append_of_mem hx
    have hnd' := hnd
    rw [hsplit, List.map_append, List.map_cons] at hnd'
    rw [List.nodup_append] at hnd'
    obtain ⟨hpreN, hconsN, hdisj⟩ := hnd'
    rw [List.nodup_cons] at hconsN
    have hpre : ∀ a ∈ pre, a.id ≠ itemId := by
      intro a ha he
      exact hdisj (List.mem_map_of_mem Item.id ha)
        (by rw [he, ← hxid]; exact List.mem_cons_self _ _)
    have hpost : ∀ a ∈ post, a.id ≠ itemId := by
      intro a ha he
      exact hconsN.1 (by rw [hxid, ← he]; exact List.mem_map_of_mem Item.id ha)
    have hfilter_pre : pre.filter (fun i => i.id != itemId) = pre := by
      rw [List.filter_eq_self]
      intro a ha
      simpa [bne_iff_ne] using hpre a ha
    have hfilter_post : post.filter (fun i => i.id != itemId) = post := by
      rw [List.filter_eq_self]
      intro a ha
      simpa [bne_iff_ne] using hpost a ha
    have hxfalse : ((x.id != itemId) : Bool) = false := by
      simp [hxid]
    have hfilter : list.items.filter (fun i => i.id != itemId) = pre ++ post := by
      rw [hsplit, List.filter_append, List.filter_cons, hxfalse]
      simp only [if_neg Bool.false_ne_true, hfilter_pre, hfilter_post]
    have hlen : (pre ++ post).length ≠ list.items.length := by
      rw [hsplit]
      simp only [List.length_append, List.length_cons]
      omega
    refine ⟨pre, post, hsplit, ?_, ?_⟩
    · simp only [deleteItem, hfilter]
      rw [if_neg hlen]
    · have hfilter2 : (pre ++ post).filter (fun i => i.id != itemId) = pre ++ post := by
        rw [List.filter_append, hfilter_pre, hfilter_post]
      simp [deleteItem, hfilter2]

/-- Witness for `deleteItem_spec` on a two-item list with unique ids. -/
theorem deleteItem_spec_witness :
    ((([⟨1, "a", false, 0⟩, ⟨2, "b", false, 1⟩] : List Item).map Item.id).Nodup) ∧
    ((∀ x ∈ ([⟨1, "a", false, 0⟩, ⟨2, "b", false, 1⟩] : List Item), x.id ≠ (2 : Int)) →
      deleteItem ⟨1, "L", [⟨1, "a", false, 0⟩, ⟨2, "b", false, 1⟩]⟩ 2
        = .error .notFound) ∧
    (∀ x ∈ ([⟨1, "a", false, 0⟩, ⟨2, "b", false, 1⟩] : List Item), x.id = (2 : Int) →
      ∃ pre post,
        ([⟨1, "a", false, 0⟩, ⟨2, "b", false, 1⟩] : List Item) = pre ++ x :: post ∧
        deleteItem ⟨1, "L", [⟨1, "a", false, 0⟩, ⟨2, "b", false, 1⟩]⟩ 2
          = .ok ⟨1, "L", pre ++ post⟩ ∧
        deleteItem (⟨1, "L", pre ++ post⟩ : GroceryList) 2 = .error .notFound) :=
  ⟨by decide,
    (deleteItem_spec ⟨1, "L", [⟨1, "a", false, 0⟩, ⟨2, "b", false, 1⟩]⟩ 2 (by decide)).1,
    (deleteItem_spec ⟨1, "L", [⟨1, "a", false, 0⟩, ⟨2, "b", false, 1⟩]⟩ 2 (by decide)).2⟩

/-- C10: for every string name accepted by `createList` or `addItem`, the
name stored in the resulting collection and returned with the created
entity is the input with leading and trailing whitespace removed
(`jsTrim`), not the input itself. -/
theorem names_stored_trimmed (doc : Document) (list : GroceryList) (s t : String)
    (doc' : Document) (newL : GroceryList) (list' : GroceryList) (newIt : Item)
    (hC : createList doc (some s) = .ok (doc', newL))
    (hA : addItem list (some t) = .ok (list', newIt)) :
    newL.name = jsTrim s ∧ newL ∈ doc'.lists ∧
    newIt.name = jsTrim t ∧ newIt ∈ list'.items := by
  simp only [createList] at hC
  split at hC
  · exact Except.noConfusion hC
  · simp only [Except.ok.injEq, Prod.mk.injEq] at hC
    obtain ⟨hd, hL⟩ := hC
    simp only [addItem, Except.ok.injEq, Prod.mk.injEq] at hA
    obtain ⟨hl, hI⟩ := hA
    refine ⟨by rw [← hL], ?_, by rw [← hI], ?_⟩
    · rw [← hd, ← hL]
      exact List.mem_append_right _ (List.mem_cons_self _ _)
    · rw [← hl, ← hI]
      exact List.mem_append_right _ (List.mem_cons_self _ _)

/-- Witness for `names_stored_trimmed`: the padded names " milk " and
"  bread  " are stored as "milk" and "bread", which differ from the
inputs. -/
theorem names_stored_trimmed_witness :
    (createList { lists := [] } (some " milk ")
      = .ok ({ lists := [⟨1, "milk", []⟩] }, ⟨1, "milk", []⟩)) ∧
    (addItem ⟨1, "milk", []⟩ (some "  bread  ")
      = .ok (⟨1, "milk", [⟨1, "bread", false, 0⟩]⟩, ⟨1, "bread", false, 0⟩)) ∧
    (jsTrim " milk " ≠ " milk ") ∧
    ((⟨1, "milk", []⟩ : GroceryList).name = jsTrim " milk " ∧
     (⟨1, "milk", []⟩ : GroceryList) ∈ ({ lists := [⟨1, "milk", []⟩] } : Document).lists ∧
     (⟨1, "bread", false, 0⟩ : Item).name = jsTrim "  bread  " ∧
     (⟨1, "bread", false, 0⟩ : Item)
       ∈ (⟨1, "milk", [⟨1, "bread", false, 0⟩]⟩ : GroceryList).items) :=
  ⟨rfl, rfl, by decide,
    names_stored_trimmed { lists := [] } ⟨1, "milk", []⟩ " milk " "  bread  "
      { lists := [⟨1, "milk", []⟩] } ⟨1, "milk", []⟩
      ⟨1, "milk", [⟨1, "bread", false, 0⟩]⟩ ⟨1, "bread", false, 0⟩ rfl rfl⟩

end Grocery
